import Mathlib

/-
Verification of the BrickWall model (src/BrickWall/BrickWall.py).

Shallow embedding conventions:
* Python ints are Lean `Int`; a row is a `List Int` of brick lengths, a wall a
  list of rows.
* The global pseudo-random source (`random.randint`, `random.shuffle`) is made
  explicit: each call site receives a draw stream `Nat → Int` (resp.
  `Nat → Nat` for shuffling) together with the index of the next draw to
  consume.  Hypotheses of theorems record the ranges `randint` guarantees.
* The accept/reject packing loop of `fill_wall_with_bricks` need not
  terminate for an arbitrary draw sequence, so it is written with explicit
  fuel; `none` means the loop was still running when the fuel ran out.
* Functions that `raise` are modelled with `Except String`; printed output is
  modelled as the list of produced lines (lists of characters).
-/

namespace BrickWall

/-- A brick row: the list of brick lengths, left to right. -/
abbrev Row := List Int

/-- A wall: the list of brick rows (`BrickWall.wall`). -/
abbrev Wall := List Row

/-- Derived length of one row: `sum(row) + len(row) + 1`
(body of `get_row_len`, src line 93). -/
def row_len (row : Row) : Int :=
  row.sum + (row.length : Int) + 1

/-- `get_row_len(index)` (src lines 89-93): length of the row at `index`,
including all brick borders. -/
def get_row_len (w : Wall) (index : Nat) : Int :=
  row_len (w.getD index [])

/-- `get_max_row_len()` (src lines 95-98): maximum row length.  On a
non-empty wall this is the exact maximum (the fold is seeded with the first
row's length, so the seed is itself one of the compared values). -/
def get_max_row_len (w : Wall) : Int :=
  (w.map row_len).foldl max (row_len (w.getD 0 []))

/-- `is_valid()` (src lines 154-162): every row length equals the first
row's length. -/
def is_valid (w : Wall) : Bool :=
  w.all fun row => row_len row == row_len (w.getD 0 [])

/-- The `while count < max_row_length` loop body of `fill_wall_with_bricks`
(src lines 111-125), for a single row.  `m` is the interior width
(`max_row_length - 2` in the source), `draws i` is the value returned by the
i-th `randint(1, m)` call, `count` is the running bricks-plus-separators
tally.  Fuel bounds the number of loop iterations; `none` means the fuel was
exhausted with the loop still running.  Returns the final row and the index
of the next unconsumed draw. -/
def fillRow (m : Int) (draws : Nat → Int) :
    Nat → Nat → Row → Int → Option (Row × Nat)
  | 0, _, _, _ => none
  | fuel + 1, i, row, count =>
    if count < m then
      if m - 1 ≤ draws i ∧ draws i ≤ m ∧ count = 0 then
        some (row ++ [m], i + 1)
      else if m - count ≤ 3 then
        some (row ++ [m - count], i + 1)
      else if m - count ≥ draws i ∧ m - count ≠ draws i + 1 then
        fillRow m draws fuel (i + 1) (row ++ [draws i]) (count + draws i + 1)
      else
        fillRow m draws fuel (i + 1) row count
    else
      some (row, i)

/-- One row of `fill_wall_with_bricks`, including the initial `count`
computation (src lines 106-109): `count = 0` for an empty row, otherwise
`sum(row) + len(row)`. -/
def fillRowStart (m : Int) (draws : Nat → Int) (fuel : Nat) (i : Nat)
    (row : Row) : Option (Row × Nat) :=
  fillRow m draws fuel i row
    (if row.length = 0 then 0 else row.sum + (row.length : Int))

/-- The `for row in self.wall` loop of `fill_wall_with_bricks`
(src lines 105-125), threading the draw index through the rows. -/
def fillRows (m : Int) (draws : Nat → Int) (fuel : Nat) :
    Wall → Nat → Option (Wall × Nat)
  | [], i => some ([], i)
  | row :: rest, i =>
    match fillRowStart m draws fuel i row with
    | none => none
    | some (row', i') =>
      match fillRows m draws fuel rest i' with
      | none => none
      | some (rest', i'') => some (row' :: rest', i'')

/-- Model of `random.shuffle` on one row: repeatedly pick the element at a
draw-chosen position and remove it.  The result is a permutation of the
input, which is all the source relies on.  `sd k` feeds the k-th random
index draw; the fuel argument is the row length. -/
def shuffleGo (sd : Nat → Nat) : Nat → Nat → Row → Row × Nat
  | 0, k, _ => ([], k)
  | n + 1, k, l =>
    if l = [] then ([], k)
    else
      let a := l.getD (sd k % l.length) 0
      let p := shuffleGo sd n (k + 1) (l.erase a)
      (a :: p.1, p.2)

/-- The `if shuffle_rows: for row in self.wall: shuffle(row)` pass of
`fill_wall_with_bricks` (src lines 127-129). -/
def shuffleWall (sd : Nat → Nat) : Wall → Nat → Wall
  | [], _ => []
  | row :: rest, k =>
    let p := shuffleGo sd row.length k row
    p.1 :: shuffleWall sd rest p.2

/-- `fill_wall_with_bricks(max_row_length, shuffle_rows)`
(src lines 100-129): subtract 2 edge symbols, fill every row, optionally
shuffle each row in place. -/
def fill_wall_with_bricks (w : Wall) (max_row_length : Int)
    (draws : Nat → Int) (sd : Nat → Nat) (shuffle_rows : Bool)
    (fuel : Nat) : Option Wall :=
  match fillRows (max_row_length - 2) draws fuel w 0 with
  | none => none
  | some (w', _) => some (if shuffle_rows then shuffleWall sd w' 0 else w')

/-- `create_wall(rows_number, row_length)` (src lines 131-152).  `none`
arguments are defaulted from the draws `rnD` (`randint(1, 10)`) and `rlD`
(`randint(10, 50)`); the isinstance checks cannot fail in this typed
embedding.  `Except.error` models the raised ValueError,
`Except.ok none` an unfinished fill loop. -/
def create_wall (rows_number row_length : Option Int) (rnD rlD : Int)
    (draws : Nat → Int) (sd : Nat → Nat) (fuel : Nat) :
    Except String (Option Wall) :=
  let rn := rows_number.getD rnD
  if rn < 1 then
    Except.error "ValueError: The wall must consists of at least one row"
  else
    let rl := row_length.getD rlD
    if rl < 3 then
      Except.error "ValueError: The row length must be greater than 3"
    else
      match fill_wall_with_bricks (List.replicate rn.toNat []) rl draws sd
          true fuel with
      | none => Except.ok none
      | some w => Except.ok (some w)

/-- `normalize_wall()` (src lines 164-178).  `dA` feeds the first fill pass,
`extra` is the `randint(3, max_extra_length)` draw, `dB` feeds the second
fill pass.  Neither pass shuffles. -/
def normalize_wall (w : Wall) (dA : Nat → Int) (extra : Int)
    (dB : Nat → Int) (fuel : Nat) : Option Wall :=
  if is_valid w then some w
  else
    match fill_wall_with_bricks w (get_max_row_len w) dA (fun _ => 0) false
        fuel with
    | none => none
    | some w1 =>
      if is_valid w1 then some w1
      else
        fill_wall_with_bricks w1 (get_max_row_len w + extra) dB (fun _ => 0)
          false fuel

/-- One update of the `intersections` dict (src line 191): Python dicts keep
insertion order, so the frequency map is an insertion-ordered association
list and incrementing an existing key keeps its position. -/
def bump : List (Int × Nat) → Int → List (Int × Nat)
  | [], k => [(k, 1)]
  | (k', c) :: rest, k =>
    if k' = k then (k', c + 1) :: rest else (k', c) :: bump rest k

/-- The `for brick_length in row[:-1]` loop of
`find_min_brick_crossline_position` (src lines 188-191): accumulate
`count += brick_length + 1` and bump its frequency. -/
def seamFold : List (Int × Nat) → List Int → Int → List (Int × Nat)
  | acc, [], _ => acc
  | acc, b :: rest, count => seamFold (bump acc (count + b + 1)) rest (count + b + 1)

/-- The full `intersections` map of a wall (src lines 186-191). -/
def intersectionsOf (w : Wall) : List (Int × Nat) :=
  w.foldl (fun acc row => seamFold acc row.dropLast 0) []

/-- Python `max(intersections, key=intersections.get)` on a non-empty
insertion-ordered map: the first key (in insertion order) attaining the
maximal value, since `max` only replaces its candidate on a strictly
greater value. -/
def argmaxFirst (l : List (Int × Nat)) : Int :=
  (l.foldl (fun best p => if best.2 < p.2 then p else best) (l.headD (0, 0))).1

/-- `find_min_brick_crossline_position()` (src lines 180-196): normalize if
invalid (consuming random draws), build the seam-frequency map, return 1 if
it is empty and the most frequent seam column otherwise. -/
def find_min_brick_crossline_position (w : Wall) (dA : Nat → Int)
    (extra : Int) (dB : Nat → Int) (fuel : Nat) : Option Int :=
  match if is_valid w then some w else normalize_wall w dA extra dB fuel with
  | none => none
  | some w1 =>
    let inters := intersectionsOf w1
    if inters.isEmpty then some 1 else some (argmaxFirst inters)

/-- `draw_wall_border(crossline_pos)` (src lines 198-210) as the produced
line: maxlen dashes, ends replaced by plus signs, and the crossing sign
written over position `crossline_pos` when given. -/
def draw_wall_border (w : Wall) (sign : Char) (crossline_pos : Option Int) :
    List Char :=
  let base := List.replicate (get_max_row_len w).toNat '-'
  let border := ['+'] ++ (base.drop 1).dropLast ++ ['+']
  match crossline_pos with
  | none => border
  | some p => border.take p.toNat ++ [sign] ++ border.drop (p.toNat + 1)

/-- The per-row character loop of `draw_wall_crossline` (src lines 236-241):
for each brick emit one character per cell (the crossing sign exactly at
column `position`, else a space) followed by a brick border. -/
def crossRowGo (sign : Char) (position : Int) : List Int → Int → List Char
  | [], _ => []
  | b :: rest, pos =>
    ((List.range b.toNat).map fun k => if pos + (k : Int) = position then sign else ' ')
      ++ ['|'] ++ crossRowGo sign position rest (pos + (b.toNat : Int) + 1)

/-- `draw_wall_crossline(position)` (src lines 223-243): validate the
position first (raising ValueError at the wall's edges, before anything is
printed), then emit top border, one line per row, bottom border. -/
def draw_wall_crossline (w : Wall) (sign : Char) (position : Int) :
    Except String (List (List Char)) :=
  if position ≤ 0 ∨ position ≥ get_max_row_len w - 1 then
    Except.error "ValueError: The line can not cross the wall at its edges"
  else
    Except.ok
      (draw_wall_border w sign (some position)
        :: (w.map fun row => '|' :: crossRowGo sign position row 1)
        ++ [draw_wall_border w sign (some position)])

/-- A Python value as far as the wall setter's isinstance check can tell:
an int or something else. -/
inductive PyVal where
  | intVal : Int → PyVal
  | strVal : String → PyVal
deriving DecidableEq

/-- The isinstance test of the wall setter. -/
def PyVal.isInt : PyVal → Bool
  | .intVal _ => true
  | _ => false

/-- The non-None branch of the `wall` property setter (src lines 70-77),
exactly as written: the generator expression iterates over the NAME `wall`,
which is not the parameter `value` but the module-level global `wall`
defined only when the file runs as a script (src lines 247-252).
`globalWall = none` models the import case, where looking up the name
raises NameError; otherwise the check inspects the global matrix and the
argument `value` is stored without ever being validated. -/
def wall_setter (globalWall : Option (List (List PyVal)))
    (value : List (List PyVal)) : Except String (List (List PyVal)) :=
  match globalWall with
  | none => Except.error "NameError: name wall is not defined"
  | some gw =>
    if gw.all fun row => row.all PyVal.isInt then Except.ok value
    else Except.error "TypeError: The wall must be list of lists of integers"

/-- The demo wall of the script's main block (src lines 247-252). -/
def demo_wall : Wall :=
  [[5, 5, 5, 5], [3, 3, 3, 7, 3], [5, 9, 7], [3, 3, 3, 6, 4]]

/-- The same matrix as the module-level Python global `wall`. -/
def main_wall : List (List PyVal) :=
  demo_wall.map fun row => row.map PyVal.intVal

/-- Every brick of every row is a positive integer. -/
def all_pos (w : Wall) : Bool :=
  w.all fun row => row.all fun b => decide (1 ≤ b)

/-- Termination of the packing loop on an initially empty row: some fuel
suffices for the loop to finish. -/
def fillTerminates (m : Int) (draws : Nat → Int) : Prop :=
  ∃ fuel p, fillRowStart m draws fuel 0 [] = some p

/-- An adversarial in-range draw sequence for interior width 10: one
accepted brick of 4, then only draws of 10, each of which is rejected
forever. -/
def advDraws : Nat → Int := fun i => if i = 0 then 4 else 10

/-- All adversarial draws lie in the range randint(1, 10) guarantees. -/
def advInRange : Prop := ∀ i, 1 ≤ advDraws i ∧ advDraws i ≤ 10

/-! ### Helper lemmas -/

theorem le_foldl_max_of_le {l : List Int} {a x : Int} (h : x ≤ a) :
    x ≤ l.foldl max a := by
  induction l generalizing a with
  | nil => simpa using h
  | cons y ys ih => exact ih (le_trans h (le_max_left a y))

theorem le_foldl_max_of_mem {l : List Int} {a x : Int} (h : x ∈ l) :
    x ≤ l.foldl max a := by
  induction l generalizing a with
  | nil => cases h
  | cons y ys ih =>
    simp only [List.foldl_cons]
    rcases List.mem_cons.mp h with rfl | hm
    · exact le_foldl_max_of_le (le_max_right a x)
    · exact ih hm

theorem row_len_le_max {w : Wall} {r : Row} (h : r ∈ w) :
    row_len r ≤ get_max_row_len w :=
  le_foldl_max_of_mem (List.mem_map_of_mem row_len h)

theorem is_valid_of_const {w : Wall} {c : Int} (h : ∀ r ∈ w, row_len r = c) :
    is_valid w = true := by
  cases w with
  | nil => rfl
  | cons r rest =>
    simp only [is_valid, List.all_eq_true, beq_iff_eq]
    intro row hrow
    have h1 := h row hrow
    have h2 := h r (List.mem_cons_self r rest)
    show row_len row = row_len ((r :: rest).getD 0 [])
    rw [h1, show (r :: rest).getD 0 [] = r from rfl, h2]

theorem forall2_mem_right {α β : Type} {R : α → β → Prop} {l1 : List α}
    {l2 : List β} (h : List.Forall₂ R l1 l2) {b : β} (hb : b ∈ l2) :
    ∃ a ∈ l1, R a b := by
  induction h with
  | nil => cases hb
  | @cons x y xs ys hr _ ih =>
    rcases List.mem_cons.mp hb with rfl | hb2
    · exact ⟨x, List.mem_cons_self x xs, hr⟩
    · obtain ⟨a, ha, hR⟩ := ih hb2
      exact ⟨a, List.mem_cons_of_mem x ha, hR⟩

theorem getD_mem {l : List Int} {j : Nat} (h : j < l.length) :
    l.getD j 0 ∈ l := by
  rw [List.getD_eq_getElem l 0 h]
  exact List.getElem_mem h

theorem forall2_comp {α β γ : Type} {R : α → β → Prop} {S : β → γ → Prop}
    {T : α → γ → Prop} (hT : ∀ a b c, R a b → S b c → T a c) :
    ∀ {l1 : List α} {l2 : List β} {l3 : List γ},
      List.Forall₂ R l1 l2 → List.Forall₂ S l2 l3 → List.Forall₂ T l1 l3 := by
  intro l1 l2 l3 h1
  induction h1 generalizing l3 with
  | nil =>
    intro h2
    cases h2
    constructor
  | cons hr _ ih =>
    intro h2
    cases h2 with
    | cons hs htail => exact List.Forall₂.cons (hT _ _ _ hr hs) (ih htail)

theorem fillRowStart_eq (m : Int) (draws : Nat → Int) (fuel i : Nat)
    (row : Row) :
    fillRowStart m draws fuel i row =
      fillRow m draws fuel i row (row.sum + (row.length : Int)) := by
  cases row <;> simp [fillRowStart]

/-- Core postcondition of the packing loop: starting from any state whose
tally matches the row, a completed loop run ends with
bricks-plus-separators equal to the interior width plus one when the loop
actually ran, and leaves the row untouched otherwise. -/
theorem fillRow_post (m : Int) (draws : Nat → Int) :
    ∀ (fuel i : Nat) (row : Row) (count : Int) (row' : Row) (i' : Nat),
      count = row.sum + (row.length : Int) →
      fillRow m draws fuel i row count = some (row', i') →
      (count < m → row'.sum + (row'.length : Int) = m + 1) ∧
      (¬ count < m → row' = row) := by
  intro fuel
  induction fuel with
  | zero => intro i row count row' i' hc h; simp [fillRow] at h
  | succ n ih =>
    intro i row count row' i' hc h
    simp only [fillRow] at h
    by_cases hlt : count < m
    · rw [if_pos hlt] at h
      refine ⟨fun _ => ?_, fun hge => absurd hlt hge⟩
      by_cases h1 : m - 1 ≤ draws i ∧ draws i ≤ m ∧ count = 0
      · rw [if_pos h1] at h
        obtain ⟨-, -, h1c⟩ := h1
        simp only [Option.some.injEq, Prod.mk.injEq] at h
        obtain ⟨hr, -⟩ := h
        subst hr
        simp only [List.sum_append, List.length_append, List.sum_cons,
          List.sum_nil, List.length_cons, List.length_nil]
        push_cast
        omega
      · rw [if_neg h1] at h
        by_cases h2 : m - count ≤ 3
        · rw [if_pos h2] at h
          simp only [Option.some.injEq, Prod.mk.injEq] at h
          obtain ⟨hr, -⟩ := h
          subst hr
          simp only [List.sum_append, List.length_append, List.sum_cons,
            List.sum_nil, List.length_cons, List.length_nil]
          push_cast
          omega
        · rw [if_neg h2] at h
          by_cases h3 : m - count ≥ draws i ∧ m - count ≠ draws i + 1
          · rw [if_pos h3] at h
            have hc2 : count + draws i + 1 =
                (row ++ [draws i]).sum + ((row ++ [draws i]).length : Int) := by
              simp only [List.sum_append, List.length_append, List.sum_cons,
                List.sum_nil, List.length_cons, List.length_nil]
              push_cast
              omega
            have ihres := ih (i + 1) (row ++ [draws i]) (count + draws i + 1)
              row' i' hc2 h
            by_cases hlt2 : count + draws i + 1 < m
            · exact ihres.1 hlt2
            · have hr := ihres.2 hlt2
              subst hr
              obtain ⟨h3a, h3b⟩ := h3
              rw [← hc2]
              omega
          · rw [if_neg h3] at h
            have ihres := ih (i + 1) row count row' i' hc h
            by_cases hlt2 : count < m
            · exact ihres.1 hlt2
            · exact absurd hlt hlt2
    · rw [if_neg hlt] at h
      simp only [Option.some.injEq, Prod.mk.injEq] at h
      obtain ⟨hr, -⟩ := h
      exact ⟨fun hcm => absurd hcm hlt, fun _ => hr.symm⟩

/-- Every brick the loop appends is positive, as long as the draws are (the
range randint(1, m) guarantees). -/
theorem fillRow_pos (m : Int) (draws : Nat → Int) (hd : ∀ i, 1 ≤ draws i) :
    ∀ (fuel i : Nat) (row : Row) (count : Int) (row' : Row) (i' : Nat),
      (∀ b ∈ row, 1 ≤ b) →
      fillRow m draws fuel i row count = some (row', i') →
      ∀ b ∈ row', 1 ≤ b := by
  intro fuel
  induction fuel with
  | zero => intro i row count row' i' hp h; simp [fillRow] at h
  | succ n ih =>
    intro i row count row' i' hp h
    simp only [fillRow] at h
    by_cases hlt : count < m
    · rw [if_pos hlt] at h
      by_cases h1 : m - 1 ≤ draws i ∧ draws i ≤ m ∧ count = 0
      · rw [if_pos h1] at h
        simp only [Option.some.injEq, Prod.mk.injEq] at h
        obtain ⟨hr, -⟩ := h
        subst hr
        intro b hb
        rcases List.mem_append.mp hb with hb1 | hb2
        · exact hp b hb1
        · rw [List.mem_singleton.mp hb2]
          omega
      · rw [if_neg h1] at h
        by_cases h2 : m - count ≤ 3
        · rw [if_pos h2] at h
          simp only [Option.some.injEq, Prod.mk.injEq] at h
          obtain ⟨hr, -⟩ := h
          subst hr
          intro b hb
          rcases List.mem_append.mp hb with hb1 | hb2
          · exact hp b hb1
          · rw [List.mem_singleton.mp hb2]
            omega
        · rw [if_neg h2] at h
          by_cases h3 : m - count ≥ draws i ∧ m - count ≠ draws i + 1
          · rw [if_pos h3] at h
            refine ih (i + 1) (row ++ [draws i]) (count + draws i + 1) row' i'
              ?_ h
            intro b hb
            rcases List.mem_append.mp hb with hb1 | hb2
            · exact hp b hb1
            · rw [List.mem_singleton.mp hb2]
              exact hd i
          · rw [if_neg h3] at h
            exact ih (i + 1) row count row' i' hp h
    · rw [if_neg hlt] at h
      simp only [Option.some.injEq, Prod.mk.injEq] at h
      obtain ⟨hr, -⟩ := h
      subst hr
      exact hp

/-- Row-wise specification of the `for row in self.wall` fill pass. -/
theorem fillRows_post (m : Int) (draws : Nat → Int) :
    ∀ (rows : Wall) (fuel i : Nat) (rows' : Wall) (i' : Nat),
      fillRows m draws fuel rows i = some (rows', i') →
      List.Forall₂ (fun r r' =>
        (r.sum + (r.length : Int) < m →
          r'.sum + (r'.length : Int) = m + 1) ∧
        (¬ r.sum + (r.length : Int) < m → r' = r)) rows rows' := by
  intro rows
  induction rows with
  | nil =>
    intro fuel i rows' i' h
    simp only [fillRows, Option.some.injEq, Prod.mk.injEq] at h
    obtain ⟨hr, -⟩ := h
    subst hr
    constructor
  | cons r rest ih =>
    intro fuel i rows' i' h
    simp only [fillRows] at h
    split at h
    · cases h
    · rename_i row1 i1 hp1
      split at h
      · cases h
      · rename_i rest1 i2 hq1
        simp only [Option.some.injEq, Prod.mk.injEq] at h
        obtain ⟨hr, -⟩ := h
        subst hr
        rw [fillRowStart_eq] at hp1
        exact List.Forall₂.cons
          (fillRow_post m draws fuel i r (r.sum + (r.length : Int)) row1 i1
            rfl hp1)
          (ih fuel i1 rest1 i2 hq1)

/-- The fill pass keeps every brick positive when the draws are positive. -/
theorem fillRows_pos (m : Int) (draws : Nat → Int) (hd : ∀ i, 1 ≤ draws i) :
    ∀ (rows : Wall) (fuel i : Nat) (rows' : Wall) (i' : Nat),
      (∀ r ∈ rows, ∀ b ∈ r, 1 ≤ b) →
      fillRows m draws fuel rows i = some (rows', i') →
      ∀ r ∈ rows', ∀ b ∈ r, 1 ≤ b := by
  intro rows
  induction rows with
  | nil =>
    intro fuel i rows' i' hp h
    simp only [fillRows, Option.some.injEq, Prod.mk.injEq] at h
    obtain ⟨hr, -⟩ := h
    subst hr
    intro r hr
    cases hr
  | cons r rest ih =>
    intro fuel i rows' i' hp h
    simp only [fillRows] at h
    split at h
    · cases h
    · rename_i row1 i1 hp1
      split at h
      · cases h
      · rename_i rest1 i2 hq1
        simp only [Option.some.injEq, Prod.mk.injEq] at h
        obtain ⟨hr, -⟩ := h
        subst hr
        intro r' hr'
        rcases List.mem_cons.mp hr' with rfl | hm
        · rw [fillRowStart_eq] at hp1
          exact fillRow_pos m draws hd fuel i r (r.sum + (r.length : Int))
            r' i1 (hp r (List.mem_cons_self r rest)) hp1
        · exact ih fuel i1 rest1 i2
            (fun r0 hr0 => hp r0 (List.mem_cons_of_mem r hr0)) hq1 r' hm

/-- The shuffle model returns a permutation of its input. -/
theorem shuffleGo_perm (sd : Nat → Nat) :
    ∀ (n k : Nat) (l : Row), l.length ≤ n → (shuffleGo sd n k l).1.Perm l := by
  intro n
  induction n with
  | zero =>
    intro k l hl
    have h0 : l = [] := List.length_eq_zero.mp (Nat.le_zero.mp hl)
    subst h0
    simp [shuffleGo]
  | succ n ih =>
    intro k l hl
    by_cases he : l = []
    · subst he
      simp [shuffleGo]
    · have hlen : 0 < l.length := List.length_pos.mpr he
      have hj : sd k % l.length < l.length := Nat.mod_lt _ hlen
      have hmem : l.getD (sd k % l.length) 0 ∈ l := getD_mem hj
      have herase : (l.erase (l.getD (sd k % l.length) 0)).length ≤ n := by
        rw [List.length_erase_of_mem hmem]
        omega
      simp only [shuffleGo, if_neg he]
      exact List.Perm.trans
        ((ih (k + 1) _ herase).cons _)
        (List.perm_cons_erase hmem).symm

/-- Row-wise permutation specification of the shuffle pass. -/
theorem shuffleWall_perm (sd : Nat → Nat) :
    ∀ (w : Wall) (k : Nat),
      List.Forall₂ (fun r' r => r'.Perm r) (shuffleWall sd w k) w := by
  intro w
  induction w with
  | nil => intro k; constructor
  | cons r rest ih =>
    intro k
    exact List.Forall₂.cons (shuffleGo_perm sd r.length k r Nat.le.refl) (ih _)

/-- Row-length specification of `fill_wall_with_bricks`: a row shorter than
the target total length `L` minus one is packed to derived length exactly
`L`; all other rows keep their derived length. -/
theorem fill_wall_row_len {w : Wall} {L : Int} {draws : Nat → Int}
    {sd : Nat → Nat} {sh : Bool} {fuel : Nat} {w' : Wall}
    (h : fill_wall_with_bricks w L draws sd sh fuel = some w') :
    List.Forall₂ (fun r r' =>
      (row_len r < L - 1 → row_len r' = L) ∧
      (¬ row_len r < L - 1 → row_len r' = row_len r)) w w' := by
  unfold fill_wall_with_bricks at h
  split at h
  · cases h
  · rename_i w1 i1 hp
    simp only [Option.some.injEq] at h
    subst h
    have hfill := fillRows_post (L - 2) draws w fuel 0 w1 i1 hp
    have hconv : List.Forall₂ (fun r r1 =>
        (row_len r < L - 1 → row_len r1 = L) ∧
        (¬ row_len r < L - 1 → row_len r1 = row_len r)) w w1 := by
      refine List.Forall₂.imp ?_ hfill
      intro r r1 hr
      unfold row_len
      constructor
      · intro hlt
        have := hr.1 (by omega)
        omega
      · intro hge
        have := hr.2 (by omega)
        subst this
        rfl
    cases sh with
    | false => simpa using hconv
    | true =>
      simp only [if_true]
      have hflip : List.Forall₂ (fun r1 r' => row_len r' = row_len r1)
          w1 (shuffleWall sd w1 0) := by
        refine List.Forall₂.imp ?_ (shuffleWall_perm sd w1 0).flip
        intro r1 r' hp'
        unfold row_len
        rw [hp'.sum_eq, hp'.length_eq]
      refine forall2_comp ?_ hconv hflip
      intro r r1 r' hr hf
      exact ⟨fun hlt => by rw [hf, hr.1 hlt],
             fun hge => by rw [hf, hr.2 hge]⟩

theorem all_pos_iff {w : Wall} :
    all_pos w = true ↔ ∀ r ∈ w, ∀ b ∈ r, 1 ≤ b := by
  simp [all_pos, List.all_eq_true]

/-- `fill_wall_with_bricks` preserves brick positivity when the draws are
positive (shuffling only permutes rows, so it preserves it too). -/
theorem fill_wall_pos {w : Wall} {L : Int} {draws : Nat → Int}
    {sd : Nat → Nat} {sh : Bool} {fuel : Nat} {w' : Wall}
    (hd : ∀ i, 1 ≤ draws i) (hw : ∀ r ∈ w, ∀ b ∈ r, 1 ≤ b)
    (h : fill_wall_with_bricks w L draws sd sh fuel = some w') :
    ∀ r ∈ w', ∀ b ∈ r, 1 ≤ b := by
  unfold fill_wall_with_bricks at h
  split at h
  · cases h
  · rename_i w1 i1 hp
    simp only [Option.some.injEq] at h
    subst h
    have hpos1 := fillRows_pos (L - 2) draws hd w fuel 0 w1 i1 hw hp
    cases sh with
    | false => simpa using hpos1
    | true =>
      simp only [if_true]
      intro r' hr' b hb
      obtain ⟨r1, hr1, hperm⟩ :=
        forall2_mem_right (shuffleWall_perm sd w1 0).flip hr'
      exact hpos1 r1 hr1 b (hperm.mem_iff.mp hb)

/-- `normalize_wall` always returns a valid wall when it finishes, for any
extra length of at least 2 (randint(3, 10) always provides at least 3). -/
theorem normalize_wall_valid {w : Wall} {dA : Nat → Int} {extra : Int}
    {dB : Nat → Int} {fuel : Nat} {w' : Wall} (hx : 2 ≤ extra)
    (h : normalize_wall w dA extra dB fuel = some w') : is_valid w' = true := by
  unfold normalize_wall at h
  by_cases hv : is_valid w
  · rw [if_pos hv] at h
    simp only [Option.some.injEq] at h
    subst h
    exact hv
  · rw [if_neg hv] at h
    split at h
    · cases h
    · rename_i w1 hp1
      have hfill1 := fill_wall_row_len hp1
      have hle1 : ∀ r1 ∈ w1, row_len r1 ≤ get_max_row_len w := by
        intro r1 hr1
        obtain ⟨r, hr, hQ⟩ := forall2_mem_right hfill1 hr1
        by_cases hc : row_len r < get_max_row_len w - 1
        · rw [hQ.1 hc]
        · rw [hQ.2 hc]
          exact row_len_le_max hr
      by_cases hv1 : is_valid w1
      · rw [if_pos hv1] at h
        simp only [Option.some.injEq] at h
        subst h
        exact hv1
      · rw [if_neg hv1] at h
        have hfill2 := fill_wall_row_len h
        refine is_valid_of_const (c := get_max_row_len w + extra) ?_
        intro r' hr'
        obtain ⟨r1, hr1, hQ⟩ := forall2_mem_right hfill2 hr'
        refine hQ.1 ?_
        have := hle1 r1 hr1
        omega

/-- After the first normalization pass every row's derived length equals
the original maximum or that maximum minus one (rows whose
bricks-plus-separators tally already reaches the shrunken interior width
are skipped by the loop and may be left one short). -/
theorem normalize_pass1 {w : Wall} {dA : Nat → Int} {fuel : Nat} {w1 : Wall}
    (h : fill_wall_with_bricks w (get_max_row_len w) dA (fun _ => 0) false
        fuel = some w1) :
    ∀ r1 ∈ w1, row_len r1 = get_max_row_len w ∨
      row_len r1 = get_max_row_len w - 1 := by
  intro r1 hr1
  obtain ⟨r, hr, hQ⟩ := forall2_mem_right (fill_wall_row_len h) hr1
  by_cases hc : row_len r < get_max_row_len w - 1
  · exact Or.inl (hQ.1 hc)
  · have hub := row_len_le_max hr
    have heq := hQ.2 hc
    omega

/-- With the adversarial draws, the loop state row = [4], count = 5 for
interior width 10 reproduces itself forever: the draw 10 neither fits nor
triggers any stopping branch, so no amount of fuel finishes the loop. -/
theorem advRow_loops : ∀ (fuel i : Nat), 1 ≤ i →
    fillRow 10 advDraws fuel i [4] 5 = none := by
  intro fuel
  induction fuel with
  | zero => intro i _; rfl
  | succ n ih =>
    intro i hi
    have hd : advDraws i = 10 := by
      unfold advDraws
      rw [if_neg (by omega)]
    simp only [fillRow, hd]
    rw [if_pos (by norm_num), if_neg (by norm_num), if_neg (by norm_num),
      if_neg (by norm_num)]
    exact ih (i + 1) (by omega)

/-- With the all-ones draw sequence the loop always finishes: every
iteration either stops or accepts a brick of length 1, shrinking the
remaining width by 2. -/
theorem onesRow_terminates (m : Int) :
    ∀ (k : Nat) (count : Int) (row : Row) (i : Nat),
      count < m → m - count ≤ (k : Int) →
      ∃ fuel p, fillRow m (fun _ => 1) fuel i row count = some p := by
  intro k
  induction k with
  | zero =>
    intro count row i h1 h2
    exact absurd h1 (by omega)
  | succ k ih =>
    intro count row i h1 h2
    by_cases c1 : m - 1 ≤ (1 : Int) ∧ (1 : Int) ≤ m ∧ count = 0
    · refine ⟨1, (row ++ [m], i + 1), ?_⟩
      simp only [fillRow]
      rw [if_pos h1, if_pos c1]
    · by_cases c2 : m - count ≤ 3
      · refine ⟨1, (row ++ [m - count], i + 1), ?_⟩
        simp only [fillRow]
        rw [if_pos h1, if_neg c1, if_pos c2]
      · have c3 : m - count ≥ (1 : Int) ∧ m - count ≠ (1 : Int) + 1 := by
          omega
        obtain ⟨fuel, p, hp⟩ := ih (count + 1 + 1) (row ++ [1]) (i + 1)
          (by omega) (by push_cast at h2 ⊢; omega)
        refine ⟨fuel + 1, p, ?_⟩
        simp only [fillRow]
        rw [if_pos h1, if_neg c1, if_neg c2, if_pos c3]
        exact hp

/-! ### Claims -/

/-- C1, counterexample: with targetInteriorWidth 1 and the only possible
draw sequence (randint(1, 1) always returns 1), the fill loop completes
with row [1], whose bricks-plus-count tally is 2, not the claimed 1: the
loop establishes sum + count = targetInteriorWidth + 1, not
targetInteriorWidth. -/
theorem fill_c1_counterexample :
    fillRowStart 1 (fun _ => 1) 5 0 [] = some ([1], 1) ∧
    ¬ (([1] : Row).sum + (([1] : Row).length : Int) = 1) := by
  exact ⟨rfl, by decide⟩

/-- C1, amended: for every targetInteriorWidth of at least 1 and every
draw sequence, when the packer's fill loop completes on an initially empty
row it satisfies sum(bricks) + count(bricks) = targetInteriorWidth + 1
(equivalently, the derived row length equals the total length passed to
fill_wall_with_bricks). -/
theorem fill_c1_amended (m : Int) (draws : Nat → Int) (fuel : Nat)
    (row' : Row) (i' : Nat) (hm : 1 ≤ m)
    (h : fillRowStart m draws fuel 0 [] = some (row', i')) :
    row'.sum + (row'.length : Int) = m + 1 := by
  rw [fillRowStart_eq] at h
  exact (fillRow_post m draws fuel 0 [] 0 row' i' (by simp) (by simpa using h)).1
    (by omega)

/-- C1, amended claim at a concrete input: interior width 3, all-ones
draws, resulting row [3]. -/
theorem fill_c1_amended_witness :
    (1 : Int) ≤ 3 ∧ ([3] : Row).sum + (([3] : Row).length : Int) = 3 + 1 :=
  ⟨by norm_num, fill_c1_amended 3 (fun _ => 1) 5 [3] 1 (by norm_num) rfl⟩

/-- C2, counterexample: the wall [[2], [1, 1]] is not rectangular (derived
row lengths 4 and 5), so find_min_brick_crossline_position first
normalizes it with random draws, and the answer depends on those draws:
with extra length 5 and second-pass draws 2, 1, 1, 1 (all within their
randint ranges) the rows become [2, 2, 2] and [1, 1, 1, 2], the seam at
column 6 is shared by both rows, and the function returns 6, not 3. -/
theorem find_c2_counterexample :
    find_min_brick_crossline_position [[2], [1, 1]] (fun _ => 1) 5
      (fun i => if i = 0 then 2 else 1) 20 = some 6 ∧ (6 : Int) ≠ 3 := by
  exact ⟨rfl, by decide⟩

/-- C2, amended: on the wall [[2], [1, 1]] the function normalizes first
(the wall is invalid: row lengths 4 and 5 differ), so the returned column
depends on the random draws consumed by normalization; some draw
sequences (for instance extra length 3, which forces the rows to [2, 3]
and [1, 1, 2]) make it return 3, while others return other columns. -/
theorem find_c2_amended :
    is_valid [[2], [1, 1]] = false ∧
    find_min_brick_crossline_position [[2], [1, 1]] (fun _ => 1) 3
      (fun _ => 1) 20 = some 3 := by
  exact ⟨rfl, rfl⟩

/-- C3: get_row_len is sum of bricks plus brick count plus one for every
wall and index, and on the demo wall [[5,5,5,5],[3,3,3,7,3],[5,9,7],
[3,3,3,6,4]] every row's length is 25 and is_valid holds without
normalization. -/
theorem get_row_len_c3 :
    (∀ (w : Wall) (i : Nat),
      get_row_len w i = (w.getD i []).sum + ((w.getD i []).length : Int) + 1) ∧
    get_row_len demo_wall 0 = 25 ∧ get_row_len demo_wall 1 = 25 ∧
    get_row_len demo_wall 2 = 25 ∧ get_row_len demo_wall 3 = 25 ∧
    is_valid demo_wall = true := by
  exact ⟨fun w i => rfl, rfl, rfl, rfl, rfl, rfl⟩

/-- C4: whenever create_wall completes (its validations passed and every
fill loop finished), the resulting wall is valid: every row was packed
from empty to the same target row length, and shuffling rows preserves
their derived lengths. -/
theorem create_wall_c4 (rows_number row_length : Option Int)
    (rnD rlD : Int) (draws : Nat → Int) (sd : Nat → Nat) (fuel : Nat)
    (w : Wall)
    (h : create_wall rows_number row_length rnD rlD draws sd fuel =
      Except.ok (some w)) :
    is_valid w = true := by
  unfold create_wall at h
  by_cases h1 : rows_number.getD rnD < 1
  · rw [if_pos h1] at h
    cases h
  · rw [if_neg h1] at h
    by_cases h2 : row_length.getD rlD < 3
    · rw [if_pos h2] at h
      cases h
    · rw [if_neg h2] at h
      split at h
      · cases h
      · rename_i w0 hw0
        simp only [Except.ok.injEq, Option.some.injEq] at h
        subst h
        refine is_valid_of_const (c := row_length.getD rlD) ?_
        intro r' hr'
        obtain ⟨r, hr, hQ⟩ := forall2_mem_right (fill_wall_row_len hw0) hr'
        have hre : r = [] := List.eq_of_mem_replicate hr
        subst hre
        refine hQ.1 ?_
        unfold row_len
        simp only [List.sum_nil, List.length_nil]
        omega

/-- C4 at a concrete input: rows_number 2, row_length 5, all-ones brick
draws; the generated wall is [[3], [3]]. -/
theorem create_wall_c4_witness : is_valid [[3], [3]] = true :=
  create_wall_c4 (some 2) (some 5) 0 0 (fun _ => 1) (fun _ => 0) 20
    [[3], [3]] rfl

/-- C5 (code bug): the wall setter never validates its argument.  Its
isinstance check iterates over the module-level global named wall (the
demo matrix when the file runs as a script, a NameError on import), not
over the value being assigned, and positivity is not checked anywhere: a
wall containing 0, a negative brick, or even a string is accepted
silently. -/
theorem wall_setter_c5 :
    wall_setter (some main_wall) [[PyVal.intVal 0]] =
      Except.ok [[PyVal.intVal 0]] ∧
    wall_setter (some main_wall) [[PyVal.intVal (-4)]] =
      Except.ok [[PyVal.intVal (-4)]] ∧
    wall_setter (some main_wall) [[PyVal.strVal "abc"]] =
      Except.ok [[PyVal.strVal "abc"]] ∧
    wall_setter none [[PyVal.intVal 1]] =
      Except.error "NameError: name wall is not defined" := by
  exact ⟨rfl, rfl, rfl, rfl⟩

/-- C6: whenever normalize_wall finishes (with the extra length at least 3,
as randint(3, max_extra_length) guarantees), the wall it returns is valid;
moreover the first fill pass leaves every row's derived length equal to
the original maximum M or to M - 1. -/
theorem normalize_wall_c6 (w : Wall) (dA : Nat → Int) (extra : Int)
    (dB : Nat → Int) (fuel : Nat) (w' : Wall) (hx : 3 ≤ extra)
    (h : normalize_wall w dA extra dB fuel = some w') :
    is_valid w' = true ∧
    ∀ w1, fill_wall_with_bricks w (get_max_row_len w) dA (fun _ => 0) false
        fuel = some w1 →
      ∀ r1 ∈ w1, row_len r1 = get_max_row_len w ∨
        row_len r1 = get_max_row_len w - 1 :=
  ⟨normalize_wall_valid (by omega) h, fun _ h1 => normalize_pass1 h1⟩

/-- C6 at a concrete input: normalizing [[2], [1, 1]] with extra length 3
and all-ones draws returns the valid wall [[2, 3], [1, 1, 2]]. -/
theorem normalize_wall_c6_witness : is_valid [[2, 3], [1, 1, 2]] = true :=
  (normalize_wall_c6 [[2], [1, 1]] (fun _ => 1) 3 (fun _ => 1) 20
    [[2, 3], [1, 1, 2]] (by norm_num) rfl).1

/-- C7: normalize_wall on an already-valid wall returns it unchanged, and
it is idempotent: whenever a first call finishes (extra length at least
3), the result is valid, so a second call with any draws returns its input
unchanged. -/
theorem normalize_wall_c7 :
    (∀ (w : Wall) (dA : Nat → Int) (extra : Int) (dB : Nat → Int)
        (fuel : Nat), is_valid w = true →
      normalize_wall w dA extra dB fuel = some w) ∧
    (∀ (w : Wall) (dA : Nat → Int) (extra : Int) (dB : Nat → Int)
        (fuel : Nat) (w' : Wall) (dA' : Nat → Int) (extra' : Int)
        (dB' : Nat → Int) (fuel' : Nat), 3 ≤ extra →
      normalize_wall w dA extra dB fuel = some w' →
      normalize_wall w' dA' extra' dB' fuel' = some w') := by
  constructor
  · intro w dA extra dB fuel hv
    unfold normalize_wall
    rw [if_pos hv]
  · intro w dA extra dB fuel w' dA' extra' dB' fuel' hx h
    have hv' := normalize_wall_valid (by omega) h
    unfold normalize_wall
    rw [if_pos hv']

/-- C7 at concrete inputs: a valid wall is returned unchanged, and the
result of normalizing [[2], [1, 1]] is a fixed point of a second call. -/
theorem normalize_wall_c7_witness :
    normalize_wall [[1], [1]] (fun _ => 1) 3 (fun _ => 1) 5 =
      some [[1], [1]] ∧
    normalize_wall [[2, 3], [1, 1, 2]] (fun _ => 2) 4 (fun _ => 2) 5 =
      some [[2, 3], [1, 1, 2]] :=
  ⟨normalize_wall_c7.1 [[1], [1]] (fun _ => 1) 3 (fun _ => 1) 5 (by decide),
   normalize_wall_c7.2 [[2], [1, 1]] (fun _ => 1) 3 (fun _ => 1) 20
     [[2, 3], [1, 1, 2]] (fun _ => 2) 4 (fun _ => 2) 5 (by norm_num) rfl⟩

/-- C8, counterexample: the accept/reject loop does not terminate for
every in-range draw sequence.  For interior width 10, the sequence
4, 10, 10, 10, ... (each draw within randint(1, 10)'s range) accepts the
first brick and then rejects every later draw forever, so no fuel bound
makes the loop finish. -/
theorem fill_c8_counterexample : advInRange ∧ ¬ fillTerminates 10 advDraws := by
  constructor
  · intro i
    unfold advDraws
    by_cases h : i = 0 <;> simp [h]
  · rintro ⟨fuel, p, h⟩
    rw [fillRowStart_eq] at h
    cases fuel with
    | zero => cases h
    | succ n =>
      have hd0 : advDraws 0 = 4 := rfl
      simp only [fillRow, hd0, List.sum_nil, List.length_nil] at h
      norm_num at h
      rw [advRow_loops n 1 (by omega)] at h
      cases h

/-- C8, amended: the loop terminates with probability 1 (for instance, it
terminates for every width of at least 1 under the all-ones draw
sequence), but termination does not hold for every sequence of in-range
draws. -/
theorem fill_c8_amended (m : Int) (hm : 1 ≤ m) :
    fillTerminates m (fun _ => 1) := by
  obtain ⟨fuel, p, hp⟩ := onesRow_terminates m m.toNat 0 [] 0 (by omega)
    (by omega)
  exact ⟨fuel, p, by rw [fillRowStart_eq]; simpa using hp⟩

/-- C8, amended claim at a concrete input: width 5 with all-ones draws. -/
theorem fill_c8_amended_witness : fillTerminates 5 (fun _ => 1) :=
  fill_c8_amended 5 (by norm_num)

/-- C9: every brick the packer appends has length at least 1, so
fill_wall_with_bricks, create_wall, normalize_wall and in-row shuffling
all preserve the invariant that every brick is a positive integer, for
draws in the ranges randint guarantees. -/
theorem all_pos_c9 :
    (∀ (w : Wall) (L : Int) (draws : Nat → Int) (sd : Nat → Nat) (sh : Bool)
        (fuel : Nat) (w' : Wall), (∀ i, 1 ≤ draws i) → all_pos w = true →
      fill_wall_with_bricks w L draws sd sh fuel = some w' →
      all_pos w' = true) ∧
    (∀ (rows_number row_length : Option Int) (rnD rlD : Int)
        (draws : Nat → Int) (sd : Nat → Nat) (fuel : Nat) (w : Wall),
      (∀ i, 1 ≤ draws i) →
      create_wall rows_number row_length rnD rlD draws sd fuel =
        Except.ok (some w) →
      all_pos w = true) ∧
    (∀ (w : Wall) (dA : Nat → Int) (extra : Int) (dB : Nat → Int)
        (fuel : Nat) (w' : Wall), (∀ i, 1 ≤ dA i) → (∀ i, 1 ≤ dB i) →
      all_pos w = true → normalize_wall w dA extra dB fuel = some w' →
      all_pos w' = true) ∧
    (∀ (sd : Nat → Nat) (w : Wall) (k : Nat), all_pos w = true →
      all_pos (shuffleWall sd w k) = true) := by
  have hshuffle : ∀ (sd : Nat → Nat) (w : Wall) (k : Nat),
      (∀ r ∈ w, ∀ b ∈ r, 1 ≤ b) →
      ∀ r' ∈ shuffleWall sd w k, ∀ b ∈ r', 1 ≤ b := by
    intro sd w k hw r' hr' b hb
    obtain ⟨r, hr, hperm⟩ :=
      forall2_mem_right (shuffleWall_perm sd w k).flip hr'
    exact hw r hr b (hperm.mem_iff.mp hb)
  refine ⟨?_, ?_, ?_, ?_⟩
  · intro w L draws sd sh fuel w' hd hw h
    exact all_pos_iff.mpr (fill_wall_pos hd (all_pos_iff.mp hw) h)
  · intro rows_number row_length rnD rlD draws sd fuel w hd h
    unfold create_wall at h
    by_cases h1 : rows_number.getD rnD < 1
    · rw [if_pos h1] at h
      cases h
    · rw [if_neg h1] at h
      by_cases h2 : row_length.getD rlD < 3
      · rw [if_pos h2] at h
        cases h
      · rw [if_neg h2] at h
        split at h
        · cases h
        · rename_i w0 hw0
          simp only [Except.ok.injEq, Option.some.injEq] at h
          subst h
          refine all_pos_iff.mpr (fill_wall_pos hd ?_ hw0)
          intro r hr b hb
          rw [List.eq_of_mem_replicate hr] at hb
          cases hb
  · intro w dA extra dB fuel w' hdA hdB hw h
    unfold normalize_wall at h
    by_cases hv : is_valid w
    · rw [if_pos hv] at h
      simp only [Option.some.injEq] at h
      subst h
      exact hw
    · rw [if_neg hv] at h
      split at h
      · cases h
      · rename_i w1 hp1
        have hpos1 := fill_wall_pos hdA (all_pos_iff.mp hw) hp1
        by_cases hv1 : is_valid w1
        · rw [if_pos hv1] at h
          simp only [Option.some.injEq] at h
          subst h
          exact all_pos_iff.mpr hpos1
        · rw [if_neg hv1] at h
          exact all_pos_iff.mpr (fill_wall_pos hdB hpos1 h)
  · intro sd w k hw
    exact all_pos_iff.mpr (hshuffle sd w k (all_pos_iff.mp hw))

/-- C9 at a concrete input: filling [[1]] to total length 5 with all-ones
draws yields [[1, 1]], all positive. -/
theorem all_pos_c9_witness : all_pos [[1, 1]] = true :=
  all_pos_c9.1 [[1]] 5 (fun _ => 1) (fun _ => 0) false 10 [[1, 1]]
    (fun _ => by norm_num) (by decide) rfl

/-- C10: on a non-empty wall, draw_wall_crossline raises its
edge-crossing ValueError exactly when the position is at most 0 or at
least the maximal row length minus 1, and in the error case no output
line is produced (the validation precedes all drawing). -/
theorem draw_wall_crossline_c10 (w : Wall) (sign : Char) (position : Int)
    (hw : w ≠ []) :
    draw_wall_crossline w sign position =
      Except.error "ValueError: The line can not cross the wall at its edges"
    ↔ (position ≤ 0 ∨ position ≥ get_max_row_len w - 1) := by
  unfold draw_wall_crossline
  by_cases hc : position ≤ 0 ∨ position ≥ get_max_row_len w - 1
  · rw [if_pos hc]
    exact ⟨fun _ => hc, fun _ => rfl⟩
  · rw [if_neg hc]
    constructor
    · intro h
      cases h
    · intro h
      exact absurd h hc

/-- C10 at a concrete input: wall [[2]] (max row length 4) with
position 5 is rejected. -/
theorem draw_wall_crossline_c10_witness :
    draw_wall_crossline [[2]] 'x' 5 =
      Except.error "ValueError: The line can not cross the wall at its edges"
    ↔ ((5 : Int) ≤ 0 ∨ (5 : Int) ≥ get_max_row_len [[2]] - 1) :=
  draw_wall_crossline_c10 [[2]] 'x' 5 (by simp)

end BrickWall
